import Mathlib

/-!
Verification of the vue-termui renderer core (`packages/termui/src/index.ts`).

The TypeScript objects are embedded shallowly: the mutable node objects become
entries of an association-list heap indexed by `Nat` identities, and each
mutating operation becomes a state-passing function on that heap.  The
recursive `removeNode` takes an explicit fuel argument (the JavaScript
recursion always terminates on finite trees; fuel only cuts off cyclic
heaps, which never arise from well-formed states).
-/

namespace VueTermui

/-- A heap of mutable objects: an association list from identities to data.
`hfind` returns the first binding, `hmodify` rewrites bindings in place,
mirroring field mutation on a JavaScript object. -/
abbrev Heap (α : Type) := List (Nat × α)

def hfind {α : Type} : Heap α → Nat → Option α
  | [], _ => none
  | (k, v) :: t, id => if k = id then some v else hfind t id

def hmodify {α : Type} : Heap α → Nat → (α → α) → Heap α
  | [], _, _ => []
  | (k, v) :: t, id, f => (k, if k = id then f v else v) :: hmodify t id f

theorem hfind_hmodify {α : Type} (h : Heap α) (id : Nat) (f : α → α) (j : Nat) :
    hfind (hmodify h id f) j = if j = id then (hfind h j).map f else hfind h j := by
  induction h with
  | nil => simp [hmodify, hfind]
  | cons kv t ih =>
    obtain ⟨k, v⟩ := kv
    by_cases hk : k = j
    · subst hk
      by_cases hkid : k = id
      · subst hkid
        simp [hmodify, hfind]
      · simp [hmodify, hfind, hkid]
    · by_cases hkid : k = id
      · subst hkid
        simp [hmodify, hfind, hk, Ne.symm hk, ih]
      · simp [hmodify, hfind, hk, hkid, ih]

theorem hfind_hmodify_same {α : Type} (h : Heap α) (id : Nat) (f : α → α) :
    hfind (hmodify h id f) id = (hfind h id).map f := by
  simp [hfind_hmodify]

theorem hfind_hmodify_ne {α : Type} (h : Heap α) (id : Nat) (f : α → α) (j : Nat)
    (hj : j ≠ id) : hfind (hmodify h id f) j = hfind h j := by
  simp [hfind_hmodify, hj]

theorem hfind_hmodify_isSome {α : Type} (h : Heap α) (id : Nat) (f : α → α) (j : Nat) :
    (hfind (hmodify h id f) j).isSome = (hfind h j).isSome := by
  rw [hfind_hmodify]
  by_cases hj : j = id <;> simp [hj]

theorem hfind_mem {α : Type} {h : Heap α} {id : Nat} {d : α}
    (hd : hfind h id = some d) : (id, d) ∈ h := by
  induction h with
  | nil => simp [hfind] at hd
  | cons kv t ih =>
    obtain ⟨k, v⟩ := kv
    by_cases hk : k = id
    · subst hk
      rw [hfind, if_pos rfl, Option.some.injEq] at hd
      subst hd
      exact List.mem_cons_self _ _
    · rw [hfind, if_neg hk] at hd
      exact List.mem_cons_of_mem _ (ih hd)

theorem mem_hfind_isSome {α : Type} {h : Heap α} {e : Nat × α} (he : e ∈ h) :
    (hfind h e.1).isSome = true := by
  induction h with
  | nil => simp at he
  | cons kv t ih =>
    rcases List.mem_cons.mp he with rfl | ht
    · simp [hfind]
    · by_cases hk : kv.1 = e.1
      · obtain ⟨k, v⟩ := kv
        simp only at hk
        simp [hfind, hk]
      · obtain ⟨k, v⟩ := kv
        simp only at hk
        simpa [hfind, hk] using ih ht

/-- `optionHolds o P` holds when `o` is `none` or its content satisfies `P`. -/
def optionHolds {α : Type} : Option α → (α → Prop) → Prop
  | none, _ => True
  | some a, P => P a

/-- `optionSome o P` holds when `o` is `some a` with `P a`. -/
def optionSome {α : Type} : Option α → (α → Prop) → Prop
  | none, _ => False
  | some a, P => P a

instance {α : Type} (o : Option α) (P : α → Prop) [hP : ∀ a, Decidable (P a)] :
    Decidable (optionHolds o P) :=
  match o with
  | none => .isTrue trivial
  | some a => hP a

instance {α : Type} (o : Option α) (P : α → Prop) [hP : ∀ a, Decidable (P a)] :
    Decidable (optionSome o P) :=
  match o with
  | none => .isFalse id
  | some a => hP a

@[simp] theorem optionHolds_none {α : Type} (P : α → Prop) : optionHolds none P ↔ True :=
  Iff.rfl

@[simp] theorem optionHolds_some {α : Type} (a : α) (P : α → Prop) :
    optionHolds (some a) P ↔ P a := Iff.rfl

@[simp] theorem optionSome_none {α : Type} (P : α → Prop) : optionSome none P ↔ False :=
  Iff.rfl

@[simp] theorem optionSome_some {α : Type} (a : α) (P : α → Prop) :
    optionSome (some a) P ↔ P a := Iff.rfl

/-! ## The node tree model (`dom.ts` node objects as used by `index.ts`)

The three node classes (`DOMElement`, `TextNode`, `CommentNode`) are flattened
into a single record; the `nodeName` field distinguishes them exactly as the
source does (`'#text'` / `'#comment'` versus an element tag name).  Style
objects and transform functions are never inspected by the renderer and are
modelled as uninterpreted numeric handles. -/

structure NodeData where
  nodeName : String
  nodeValue : String := ""
  childNodes : List Nat := []
  parentNode : Option Nat := none
  yogaNode : Option Nat := none
  style : Option Nat := none
  internal_transform : Option Nat := none
deriving DecidableEq

/-- Modelled from the spec: the external layout engine's node (a "layout-node
handle", §6): child topology, an optional measurement callback, a freed flag
for `freeRecursive`, and the last style applied through `applyStyles`. -/
structure YogaData where
  children : List Nat := []
  hasMeasureFunc : Bool := false
  freed : Bool := false
  appliedStyle : Option Nat := none
deriving DecidableEq

structure RendererState where
  nodes : Heap NodeData
  yoga : Heap YogaData
deriving DecidableEq

/-- `createElement(type)`: a fresh unattached element node. -/
def createElement (tag : String) : NodeData := { nodeName := tag }

/-- `createText(text)`: a fresh unattached text node. -/
def createText (text : String) : NodeData := { nodeName := "#text", nodeValue := text }

/-- `createComment(text)`: a fresh unattached comment node. -/
def createComment (text : String) : NodeData := { nodeName := "#comment", nodeValue := text }

/-- Modelled from the spec: the layout engine's `freeRecursive` (§6) frees the
entire layout subtree.  Fuel bounds the recursion on the heap embedding. -/
def freeRecursiveY : Nat → Heap YogaData → Nat → Heap YogaData
  | 0, h, _ => h
  | fuel + 1, h, y =>
    let kids := ((hfind h y).map (·.children)).getD []
    let h1 := kids.foldl (freeRecursiveY fuel) h
    hmodify h1 y fun d => { d with freed := true }

/-- Insert `n` immediately before the first occurrence of `a`. -/
def insertBeforeAnchor : List Nat → Nat → Nat → List Nat
  | [], _, n => [n]
  | x :: t, a, n => if x = a then n :: x :: t else x :: insertBeforeAnchor t a n

/-- Child-sequence update of `insert`: before the anchor when the anchor is a
current child, appended otherwise. -/
def childInsert (l : List Nat) (anchor : Option Nat) (n : Nat) : List Nat :=
  match anchor with
  | some a => if a ∈ l then insertBeforeAnchor l a n else l ++ [n]
  | none => l ++ [n]

/-- `parentNode.childNodes.splice(selfIndex, 1)`: drop the first occurrence
of `x` from the child sequence. -/
def eraseChildF (x : Nat) : NodeData → NodeData :=
  fun d => { d with childNodes := d.childNodes.erase x }

/-- `node.parentNode = null`. -/
def clearParentF : NodeData → NodeData :=
  fun d => { d with parentNode := none }

/-- `node.parentNode = parent`. -/
def setParentF (parent : Nat) : NodeData → NodeData :=
  fun d => { d with parentNode := some parent }

/-- Child-sequence insertion of `insertNode`. -/
def insChildF (anchor : Option Nat) (nd : Nat) : NodeData → NodeData :=
  fun d => { d with childNodes := childInsert d.childNodes anchor nd }

/-- The detach half of `removeNode` (source lines 22-37): if the node has a
parent, splice it out of the parent's `childNodes` (first occurrence, no-op
when absent), release its yoga node (`removeChild` on the parent's yoga node,
`unsetMeasureFunc`, `freeRecursive`), and finally null the parent pointer. -/
def detachSelf (s : RendererState) (id : Nat) : RendererState :=
  match hfind s.nodes id with
  | none => s
  | some n =>
    match n.parentNode with
    | none => s
    | some p =>
      let nodes1 := hmodify s.nodes p (eraseChildF id)
      let yoga1 :=
        match n.yogaNode with
        | none => s.yoga
        | some y =>
          let yh :=
            match (hfind nodes1 p).bind (·.yogaNode) with
            | some py => hmodify s.yoga py fun d => { d with children := d.children.erase y }
            | none => s.yoga
          let yh2 := hmodify yh y fun d => { d with hasMeasureFunc := false }
          freeRecursiveY (yh2.length + 1) yh2 y
      { nodes := hmodify nodes1 id clearParentF, yoga := yoga1 }

/-- `node.childNodes.map(removeNode)` with JavaScript `Array.prototype.map`
semantics: the length is captured before iteration, each index is re-read
from the live (mutated) array, and indices past the current length are
skipped. -/
def mapRemoveChildren (rm : RendererState → Nat → RendererState) (id : Nat) :
    Nat → Nat → RendererState → RendererState
  | 0, _, s => s
  | r + 1, k, s =>
    let cur := ((hfind s.nodes id).map (·.childNodes)).getD []
    let s' :=
      match cur.get? k with
      | some c => rm s c
      | none => s
    mapRemoveChildren rm id r (k + 1) s'

/-- `removeNode` (source lines 16-40): recurse over the children first
(unless the node is a text or comment node), then detach the node itself. -/
def removeNode : Nat → RendererState → Nat → RendererState
  | 0, s, _ => s
  | fuel + 1, s, id =>
    match hfind s.nodes id with
    | none => s
    | some n =>
      let s1 :=
        if n.nodeName = "#comment" ∨ n.nodeName = "#text" then s
        else mapRemoveChildren (removeNode fuel) id n.childNodes.length 0 s
      detachSelf s1 id

/-- Modelled from the spec: `DOMElement.insertNode` (`dom.ts`, not under
`src/`), the target of the adapter's `insert(el, parent, anchor)` (§4.1): the
node is placed immediately before the anchor when the anchor is currently a
child of the parent and appended otherwise, and its parent reference is set.
The §4.2 guarantee that `insert` is idempotent-safe for an already-positioned
node requires first detaching the node from its current parent's child
sequence.  Only the node-tree half is modelled; layout mirroring is not
needed by any claim. -/
def insertNode (s : RendererState) (node parent : Nat) (anchor : Option Nat) : RendererState :=
  let nodes1 :=
    match (hfind s.nodes node).bind (·.parentNode) with
    | some q => hmodify s.nodes q (eraseChildF node)
    | none => s.nodes
  let nodes2 := hmodify nodes1 parent (insChildF anchor node)
  { s with nodes := hmodify nodes2 node (setParentF parent) }

/-! ## Remaining renderer host adapter operations -/

/-- `patchProp(el, key, prevValue, nextValue)` (source lines 46-56): a
`style` key stores the style and applies it to the yoga node when one exists;
`internal_transform` stores the transform; all other keys do nothing.
`prevValue` is accepted and ignored, as in the source. -/
def applyStyles (h : Heap YogaData) (y : Nat) (style : Nat) : Heap YogaData :=
  hmodify h y fun d => { d with appliedStyle := some style }

def patchProp (s : RendererState) (id : Nat) (key : String) (prevValue nextValue : Nat) :
    RendererState :=
  if key = "style" then
    let nodes1 := hmodify s.nodes id fun d => { d with style := some nextValue }
    match (hfind nodes1 id).bind (·.yogaNode) with
    | some y => { nodes := nodes1, yoga := applyStyles s.yoga y nextValue }
    | none => { nodes := nodes1, yoga := s.yoga }
  else if key = "internal_transform" then
    { s with nodes := hmodify s.nodes id fun d => { d with internal_transform := some nextValue } }
  else s

/-- Whether the node with identity `c` is a text node. -/
def isTextNodeAt (s : RendererState) (c : Nat) : Bool :=
  match hfind s.nodes c with
  | some cd => cd.nodeName == "#text"
  | none => false

/-- `node.childNodes.find((node) => node.nodeName === '#text')`. -/
def firstTextChild (s : RendererState) (id : Nat) : Option Nat :=
  (((hfind s.nodes id).map (·.childNodes)).getD []).find? (isTextNodeAt s)

/-- `setElementText(node, text)` (source lines 85-95): replace the value of
the first text child, or insert a fresh text node when there is none.
`fresh` is the identity of the freshly allocated `TextNode`. -/
def setElementText (s : RendererState) (id : Nat) (text : String) (fresh : Nat) :
    RendererState :=
  match firstTextChild s id with
  | some c => { s with nodes := hmodify s.nodes c fun d => { d with nodeValue := text } }
  | none =>
    let s1 : RendererState := { s with nodes := (fresh, createText text) :: s.nodes }
    insertNode s1 fresh id none

/-- `setText(node, text)` (source lines 96-104): replace the value of a text
or comment node; otherwise fall through to `setElementText`. -/
def setText (s : RendererState) (id : Nat) (text : String) (fresh : Nat) : RendererState :=
  match hfind s.nodes id with
  | none => s
  | some n =>
    if n.nodeName = "#text" ∨ n.nodeName = "#comment" then
      { s with nodes := hmodify s.nodes id fun d => { d with nodeValue := text } }
    else
      setElementText s id text fresh

/-- JavaScript `Array.prototype.indexOf`: index of the first occurrence. -/
def listIndexOf : List Nat → Nat → Option Nat
  | [], _ => none
  | x :: t, id => if x = id then some 0 else (listIndexOf t id).map (· + 1)

/-- `nextSibling(node)` (source lines 79-83). -/
def nextSibling (s : RendererState) (id : Nat) : Option Nat :=
  match (hfind s.nodes id).bind (·.parentNode) with
  | none => none
  | some p =>
    let cs := ((hfind s.nodes p).map (·.childNodes)).getD []
    match listIndexOf cs id with
    | some i => cs.get? (i + 1)
    | none => none

/-! ## List lemmas for the child-sequence operations -/

theorem mem_insertBeforeAnchor {x n a : Nat} :
    ∀ l : List Nat, x ∈ insertBeforeAnchor l a n ↔ x = n ∨ x ∈ l := by
  intro l
  induction l with
  | nil => simp [insertBeforeAnchor]
  | cons y t ih =>
    by_cases hy : y = a
    · simp only [insertBeforeAnchor, if_pos hy, List.mem_cons]
    · simp only [insertBeforeAnchor, if_neg hy, List.mem_cons, ih]
      tauto

theorem nodup_insertBeforeAnchor {n a : Nat} :
    ∀ {l : List Nat}, l.Nodup → n ∉ l → (insertBeforeAnchor l a n).Nodup := by
  intro l
  induction l with
  | nil => intro _ _; simp [insertBeforeAnchor]
  | cons y t ih =>
    intro hnd hn
    rw [List.nodup_cons] at hnd
    by_cases hy : y = a
    · rw [insertBeforeAnchor, if_pos hy, List.nodup_cons, List.nodup_cons]
      exact ⟨hn, hnd.1, hnd.2⟩
    · rw [insertBeforeAnchor, if_neg hy, List.nodup_cons]
      refine ⟨?_, ih hnd.2 fun hmem => hn (List.mem_cons_of_mem _ hmem)⟩
      rw [mem_insertBeforeAnchor]
      rintro (rfl | hyt)
      · exact hn (List.mem_cons_self _ _)
      · exact hnd.1 hyt

theorem mem_childInsert {x n : Nat} {anchor : Option Nat} {l : List Nat} :
    x ∈ childInsert l anchor n ↔ x = n ∨ x ∈ l := by
  cases anchor with
  | none => simp [childInsert]; tauto
  | some a =>
    by_cases ha : a ∈ l
    · simp [childInsert, ha, mem_insertBeforeAnchor]
    · simp [childInsert, ha]
      tauto

theorem self_mem_childInsert {n : Nat} {anchor : Option Nat} {l : List Nat} :
    n ∈ childInsert l anchor n :=
  mem_childInsert.mpr (Or.inl rfl)

theorem nodup_childInsert {n : Nat} {anchor : Option Nat} {l : List Nat}
    (hl : l.Nodup) (hn : n ∉ l) : (childInsert l anchor n).Nodup := by
  cases anchor with
  | none =>
    rw [childInsert, List.nodup_append]
    exact ⟨hl, List.nodup_singleton n, fun x hx hx1 => by
      rw [List.mem_singleton] at hx1
      exact hn (hx1 ▸ hx)⟩
  | some a =>
    by_cases ha : a ∈ l
    · rw [childInsert, if_pos ha]
      exact nodup_insertBeforeAnchor hl hn
    · rw [childInsert, if_neg ha, List.nodup_append]
      exact ⟨hl, List.nodup_singleton n, fun x hx hx1 => by
        rw [List.mem_singleton] at hx1
        exact hn (hx1 ▸ hx)⟩

/-! ## Tree well-formedness

`nodeOK h id d` says: the children of `d` are pairwise distinct, every child
points back at `id`, and the recorded parent of `id` (when non-null) is a
heap node whose child sequence contains `id`.  `TreeWF` asserts `nodeOK` of
every binding; `treeWFcheck` is the decidable scan over the entries. -/

def nodeOK (h : Heap NodeData) (id : Nat) (d : NodeData) : Prop :=
  d.childNodes.Nodup ∧
  (∀ c ∈ d.childNodes, optionSome (hfind h c) fun cd => cd.parentNode = some id) ∧
  (optionHolds d.parentNode fun pp => optionSome (hfind h pp) fun pd => id ∈ pd.childNodes)

instance (h : Heap NodeData) (id : Nat) (d : NodeData) : Decidable (nodeOK h id d) := by
  unfold nodeOK
  infer_instance

def TreeWF (h : Heap NodeData) : Prop :=
  ∀ id d, hfind h id = some d → nodeOK h id d

def treeWFcheck (h : Heap NodeData) : Prop :=
  ∀ e ∈ h, optionHolds (hfind h e.1) fun d => nodeOK h e.1 d

instance (h : Heap NodeData) : Decidable (treeWFcheck h) := by
  unfold treeWFcheck
  infer_instance

theorem treeWF_of_check {h : Heap NodeData} (hc : treeWFcheck h) : TreeWF h := by
  intro id d hd
  have hmem := hfind_mem hd
  have := hc (id, d) hmem
  rw [hd] at this
  exact this

/-- The invariant exactly as claimed: every non-null parent back-reference
points to a heap node whose child sequence contains the node, at most once. -/
def ClaimInvariant (h : Heap NodeData) : Prop :=
  ∀ id d, hfind h id = some d →
    optionHolds d.parentNode fun pp =>
      optionSome (hfind h pp) fun pd => id ∈ pd.childNodes ∧ pd.childNodes.count id ≤ 1

theorem claimInvariant_of_treeWF {h : Heap NodeData} (hw : TreeWF h) : ClaimInvariant h := by
  intro id d hd
  obtain ⟨-, -, hparent⟩ := hw id d hd
  cases hpn : d.parentNode with
  | none => trivial
  | some pp =>
    rw [hpn, optionHolds_some] at hparent
    rw [optionHolds_some]
    cases hfp : hfind h pp with
    | none => rw [hfp] at hparent; exact absurd hparent (by simp)
    | some pd =>
      rw [hfp] at hparent
      rw [optionSome_some] at hparent ⊢
      obtain ⟨hndp, -, -⟩ := hw pp pd hfp
      exact ⟨hparent, List.nodup_iff_count_le_one.mp hndp id⟩

/-! ## Heap characterizations of the mutation steps -/

theorem hfind_eraseStage (h : Heap NodeData) (q x j : Nat) :
    hfind (hmodify h q (eraseChildF x)) j =
      (hfind h j).map fun d =>
        { d with childNodes := if j = q then d.childNodes.erase x else d.childNodes } := by
  rw [hfind_hmodify]
  by_cases hj : j = q <;> cases hfind h j <;> simp [hj, eraseChildF]

theorem hfind_detachChar (h : Heap NodeData) (id p j : Nat) :
    hfind (hmodify (hmodify h p (eraseChildF id)) id clearParentF) j =
      (hfind h j).map fun d =>
        { d with childNodes := if j = p then d.childNodes.erase id else d.childNodes,
                 parentNode := if j = id then none else d.parentNode } := by
  rw [hfind_hmodify, hfind_hmodify]
  by_cases hjid : j = id
  · subst hjid
    by_cases hjp : j = p
    · subst hjp
      cases hfind h j <;> simp [eraseChildF, clearParentF]
    · cases hfind h j <;> simp [hjp, eraseChildF, clearParentF]
  · by_cases hjp : j = p
    · subst hjp
      cases hfind h j <;> simp [hjid, eraseChildF, clearParentF]
    · cases hfind h j <;> simp [hjid, hjp, eraseChildF, clearParentF]

theorem hfind_insertPairChar (h : Heap NodeData) (parent node : Nat) (anchor : Option Nat)
    (j : Nat) :
    hfind (hmodify (hmodify h parent (insChildF anchor node)) node (setParentF parent)) j =
      (hfind h j).map fun d =>
        { d with childNodes := if j = parent then childInsert d.childNodes anchor node
                               else d.childNodes,
                 parentNode := if j = node then some parent else d.parentNode } := by
  rw [hfind_hmodify, hfind_hmodify]
  by_cases hjn : j = node
  · subst hjn
    by_cases hjp : j = parent
    · subst hjp
      cases hfind h j <;> simp [insChildF, setParentF]
    · cases hfind h j <;> simp [hjp, insChildF, setParentF]
  · by_cases hjp : j = parent
    · subst hjp
      cases hfind h j <;> simp [hjn, insChildF, setParentF]
    · cases hfind h j <;> simp [hjn, hjp, insChildF, setParentF]

/-! ## The detach step preserves tree well-formedness -/

theorem TreeWF_detach {h : Heap NodeData} {id p : Nat} {n : NodeData}
    (hw : TreeWF h) (hn : hfind h id = some n) (hp : n.parentNode = some p) :
    TreeWF (hmodify (hmodify h p (eraseChildF id)) id clearParentF) := by
  intro j d hj
  rw [hfind_detachChar] at hj
  obtain ⟨d0, hd0, rfl⟩ := Option.map_eq_some'.mp hj
  obtain ⟨hnd, hmem, hpar⟩ := hw j d0 hd0
  unfold nodeOK
  refine ⟨?_, ?_, ?_⟩
  · -- children stay pairwise distinct
    by_cases hjp : j = p <;> simp only [hjp, if_pos, if_neg, if_true, if_false]
    · exact hnd.erase id
    · simpa [hjp] using hnd
  · -- every child still points back at `j`
    intro c hc
    simp only at hc
    have hcfacts : c ≠ id ∧ c ∈ d0.childNodes := by
      by_cases hjp : j = p
      · rw [if_pos hjp] at hc
        exact hnd.mem_erase_iff.mp hc
      · rw [if_neg hjp] at hc
        refine ⟨?_, hc⟩
        intro hcid
        subst hcid
        have := hmem c hc
        rw [hn, optionSome_some] at this
        rw [this] at hp
        exact hjp (Option.some.inj hp)
      -- in the second branch `c = id` would force `j = p`
    obtain ⟨hcid, hcmem⟩ := hcfacts
    have hcd := hmem c hcmem
    cases hfc : hfind h c with
    | none => rw [hfc] at hcd; exact absurd hcd (by simp)
    | some cd =>
      rw [hfc, optionSome_some] at hcd
      rw [hfind_detachChar, hfc]
      simp only [Option.map_some', optionSome_some, if_neg hcid]
      exact hcd
  · -- the rewritten parent pointer still matches containment
    by_cases hjid : j = id
    · simp [hjid]
    · simp only [if_neg hjid]
      cases hd0pn : d0.parentNode with
      | none => trivial
      | some qq =>
        rw [hd0pn, optionHolds_some] at hpar
        rw [optionHolds_some]
        cases hfq : hfind h qq with
        | none => rw [hfq] at hpar; exact absurd hpar (by simp)
        | some qd =>
          rw [hfq, optionSome_some] at hpar
          rw [hfind_detachChar, hfq]
          simp only [Option.map_some', optionSome_some]
          by_cases hqp : qq = p
          · simp only [if_pos hqp]
            exact (List.mem_erase_of_ne hjid).mpr hpar
          · simp only [if_neg hqp]
            exact hpar

/-! ## Insertion preserves tree well-formedness -/

theorem TreeWF_insert_core (h : Heap NodeData) (node parent : Nat) (anchor : Option Nat)
    (hnode : (hfind h node).isSome = true)
    (hparent : (hfind h parent).isSome = true)
    (hnodup : ∀ j d, hfind h j = some d → d.childNodes.Nodup)
    (hmemP : ∀ j d c, hfind h j = some d → c ∈ d.childNodes →
      optionSome (hfind h c) fun cd => cd.parentNode = some j)
    (hparM : ∀ j d, j ≠ node → hfind h j = some d →
      optionHolds d.parentNode fun pp => optionSome (hfind h pp) fun pd => j ∈ pd.childNodes)
    (hnotin : ∀ j d, hfind h j = some d → node ∉ d.childNodes) :
    TreeWF (hmodify (hmodify h parent (insChildF anchor node)) node (setParentF parent)) := by
  intro j d hj
  rw [hfind_insertPairChar] at hj
  obtain ⟨d0, hd0, rfl⟩ := Option.map_eq_some'.mp hj
  unfold nodeOK
  refine ⟨?_, ?_, ?_⟩
  · by_cases hjp : j = parent
    · simp only [if_pos hjp]
      exact nodup_childInsert (hnodup j d0 hd0) (hnotin j d0 hd0)
    · simp only [if_neg hjp]
      exact hnodup j d0 hd0
  · intro c hc
    simp only at hc
    have hcases : c = node ∨ (c ∈ d0.childNodes ∧ c ≠ node) := by
      by_cases hjp : j = parent
      · rw [if_pos hjp] at hc
        rcases mem_childInsert.mp hc with hcn | hcm
        · exact Or.inl hcn
        · by_cases hcn : c = node
          · exact Or.inl hcn
          · exact Or.inr ⟨hcm, hcn⟩
      · rw [if_neg hjp] at hc
        by_cases hcn : c = node
        · subst hcn
          exact absurd hc (hnotin j d0 hd0)
        · exact Or.inr ⟨hc, hcn⟩
    rcases hcases with rfl | ⟨hcm, hcn⟩
    · -- `c` is the inserted node itself, so `j` must be the parent
      have hjp : j = parent := by
        by_cases hjp : j = parent
        · exact hjp
        · rw [if_neg hjp] at hc
          exact absurd hc (hnotin j d0 hd0)
      cases hfp : hfind h c with
      | none => rw [hfp] at hnode; exact absurd hnode (by simp)
      | some cd =>
        rw [hfind_insertPairChar, hfp]
        simp only [Option.map_some', optionSome_some, if_pos rfl]
        exact congrArg some hjp.symm
    · have hcd := hmemP j d0 c hd0 hcm
      cases hfc : hfind h c with
      | none => rw [hfc] at hcd; exact absurd hcd (by simp)
      | some cd =>
        rw [hfc, optionSome_some] at hcd
        rw [hfind_insertPairChar, hfc]
        simp only [Option.map_some', optionSome_some, if_neg hcn]
        exact hcd
  · by_cases hjn : j = node
    · simp only [if_pos hjn]
      rw [optionHolds_some]
      obtain ⟨pd1, hpd1⟩ := Option.isSome_iff_exists.mp hparent
      rw [hfind_insertPairChar, hpd1]
      simp only [Option.map_some', optionSome_some, if_pos rfl]
      rw [hjn]
      exact self_mem_childInsert
    · simp only [if_neg hjn]
      cases hd0pn : d0.parentNode with
      | none => trivial
      | some qq =>
        have hpar := hparM j d0 hjn hd0
        rw [hd0pn, optionHolds_some] at hpar
        rw [optionHolds_some]
        cases hfq : hfind h qq with
        | none => rw [hfq] at hpar; exact absurd hpar (by simp)
        | some qd =>
          rw [hfq, optionSome_some] at hpar
          rw [hfind_insertPairChar, hfq]
          simp only [Option.map_some', optionSome_some]
          by_cases hqp : qq = parent
          · simp only [if_pos hqp]
            exact mem_childInsert.mpr (Or.inr hpar)
          · simp only [if_neg hqp]
            exact hpar

theorem TreeWF_insertNode (s : RendererState) (node parent : Nat) (anchor : Option Nat)
    (hw : TreeWF s.nodes)
    (hnode : (hfind s.nodes node).isSome = true)
    (hparent : (hfind s.nodes parent).isSome = true) :
    TreeWF (insertNode s node parent anchor).nodes := by
  obtain ⟨nd, hnd⟩ := Option.isSome_iff_exists.mp hnode
  cases hpn : nd.parentNode with
  | none =>
    have hred : (insertNode s node parent anchor).nodes =
        hmodify (hmodify s.nodes parent (insChildF anchor node)) node (setParentF parent) := by
      simp only [insertNode, hnd, Option.some_bind, hpn]
    rw [hred]
    refine TreeWF_insert_core s.nodes node parent anchor hnode hparent
      (fun j d hd => (hw j d hd).1) (fun j d c hd hc => (hw j d hd).2.1 c hc)
      (fun j d _ hd => (hw j d hd).2.2) ?_
    intro j d hd hmem
    have hback := (hw j d hd).2.1 node hmem
    rw [hnd, optionSome_some] at hback
    rw [hback] at hpn
    cases hpn
  | some q =>
    have hred : (insertNode s node parent anchor).nodes =
        hmodify (hmodify (hmodify s.nodes q (eraseChildF node)) parent
          (insChildF anchor node)) node (setParentF parent) := by
      simp only [insertNode, hnd, Option.some_bind, hpn]
    rw [hred]
    refine TreeWF_insert_core _ node parent anchor ?_ ?_ ?_ ?_ ?_ ?_
    · rw [hfind_eraseStage, hnd]
      rfl
    · rw [hfind_eraseStage]
      obtain ⟨pd, hpd⟩ := Option.isSome_iff_exists.mp hparent
      rw [hpd]
      rfl
    · intro j d hd
      rw [hfind_eraseStage] at hd
      obtain ⟨d0, hd0, rfl⟩ := Option.map_eq_some'.mp hd
      by_cases hjq : j = q
      · simp only [if_pos hjq]
        exact ((hw j d0 hd0).1).erase node
      · simp only [if_neg hjq]
        exact (hw j d0 hd0).1
    · intro j d c hd hc
      rw [hfind_eraseStage] at hd
      obtain ⟨d0, hd0, rfl⟩ := Option.map_eq_some'.mp hd
      simp only at hc
      have hcm : c ∈ d0.childNodes := by
        by_cases hjq : j = q
        · rw [if_pos hjq] at hc
          exact List.mem_of_mem_erase hc
        · rwa [if_neg hjq] at hc
      have hcd := (hw j d0 hd0).2.1 c hcm
      cases hfc : hfind s.nodes c with
      | none => rw [hfc] at hcd; exact absurd hcd (by simp)
      | some cd =>
        rw [hfc, optionSome_some] at hcd
        rw [hfind_eraseStage, hfc]
        simp only [Option.map_some', optionSome_some]
        exact hcd
    · intro j d hjn hd
      rw [hfind_eraseStage] at hd
      obtain ⟨d0, hd0, rfl⟩ := Option.map_eq_some'.mp hd
      have hpar := (hw j d0 hd0).2.2
      simp only
      cases hd0pn : d0.parentNode with
      | none => trivial
      | some qq =>
        rw [hd0pn, optionHolds_some] at hpar
        rw [optionHolds_some]
        cases hfq : hfind s.nodes qq with
        | none => rw [hfq] at hpar; exact absurd hpar (by simp)
        | some qd =>
          rw [hfq, optionSome_some] at hpar
          rw [hfind_eraseStage, hfq]
          simp only [Option.map_some', optionSome_some]
          by_cases hqq : qq = q
          · simp only [if_pos hqq]
            exact (List.mem_erase_of_ne hjn).mpr hpar
          · simp only [if_neg hqq]
            exact hpar
    · intro j d hd
      rw [hfind_eraseStage] at hd
      obtain ⟨d0, hd0, rfl⟩ := Option.map_eq_some'.mp hd
      simp only
      by_cases hjq : j = q
      · rw [if_pos hjq]
        intro hmem
        exact absurd hmem ((hw j d0 hd0).1.not_mem_erase)
      · rw [if_neg hjq]
        intro hmem
        have hback := (hw j d0 hd0).2.1 node hmem
        rw [hnd, optionSome_some] at hback
        rw [hback] at hpn
        exact hjq (Option.some.inj hpn)

/-! ## `removeNode` preserves tree well-formedness -/

theorem detachSelf_eq_of_noparent {s : RendererState} {id : Nat}
    (h : ((hfind s.nodes id).bind (·.parentNode)) = none) : detachSelf s id = s := by
  rcases hfd : hfind s.nodes id with _ | n
  · simp only [detachSelf, hfd]
  · rw [hfd, Option.some_bind] at h
    simp only [detachSelf, hfd, h]

theorem detachSelf_nodes_of_parent {s : RendererState} {id p : Nat} {n : NodeData}
    (hfd : hfind s.nodes id = some n) (hpn : n.parentNode = some p) :
    (detachSelf s id).nodes =
      hmodify (hmodify s.nodes p (eraseChildF id)) id clearParentF := by
  simp only [detachSelf, hfd, hpn]

theorem detachSelf_preserves (s : RendererState) (id : Nat) (hw : TreeWF s.nodes) :
    TreeWF (detachSelf s id).nodes := by
  cases hfd : hfind s.nodes id with
  | none =>
    rw [detachSelf_eq_of_noparent (by rw [hfd]; rfl)]
    exact hw
  | some n =>
    cases hpn : n.parentNode with
    | none =>
      rw [detachSelf_eq_of_noparent (by rw [hfd, Option.some_bind, hpn])]
      exact hw
    | some p =>
      rw [detachSelf_nodes_of_parent hfd hpn]
      exact TreeWF_detach hw hfd hpn

theorem mapRemoveChildren_succ (rm : RendererState → Nat → RendererState) (id : Nat)
    (r k : Nat) (s : RendererState) :
    mapRemoveChildren rm id (r + 1) k s =
      mapRemoveChildren rm id r (k + 1)
        (match (((hfind s.nodes id).map (·.childNodes)).getD []).get? k with
         | some c => rm s c
         | none => s) := rfl

theorem mapRemoveChildren_preserves (rm : RendererState → Nat → RendererState)
    (hrm : ∀ s c, TreeWF s.nodes → TreeWF (rm s c).nodes) :
    ∀ r k s id, TreeWF s.nodes → TreeWF (mapRemoveChildren rm id r k s).nodes := by
  intro r
  induction r with
  | zero => intro k s id hw; exact hw
  | succ r ih =>
    intro k s id hw
    rw [mapRemoveChildren_succ]
    rcases hg : (((hfind s.nodes id).map (·.childNodes)).getD []).get? k with _ | c
    · rw [hg]
      exact ih (k + 1) s id hw
    · rw [hg]
      exact ih (k + 1) (rm s c) id (hrm s c hw)

theorem removeNode_succ_of_found {fuel : Nat} {s : RendererState} {id : Nat} {n : NodeData}
    (hfd : hfind s.nodes id = some n) :
    removeNode (fuel + 1) s id =
      detachSelf
        (if n.nodeName = "#comment" ∨ n.nodeName = "#text" then s
         else mapRemoveChildren (removeNode fuel) id n.childNodes.length 0 s) id := by
  simp only [removeNode, hfd]

theorem removeNode_of_missing {fuel : Nat} {s : RendererState} {id : Nat}
    (hfd : hfind s.nodes id = none) : removeNode (fuel + 1) s id = s := by
  simp only [removeNode, hfd]

theorem removeNode_preserves :
    ∀ fuel s id, TreeWF s.nodes → TreeWF (removeNode fuel s id).nodes := by
  intro fuel
  induction fuel with
  | zero => intro s id hw; exact hw
  | succ fuel ih =>
    intro s id hw
    cases hfd : hfind s.nodes id with
    | none =>
      rw [removeNode_of_missing hfd]
      exact hw
    | some n =>
      rw [removeNode_succ_of_found hfd]
      by_cases hname : n.nodeName = "#comment" ∨ n.nodeName = "#text"
      · rw [if_pos hname]
        exact detachSelf_preserves _ _ hw
      · rw [if_neg hname]
        exact detachSelf_preserves _ _
          (mapRemoveChildren_preserves _ (fun s c => ih s c) _ _ _ _ hw)

/-! ## The operations never add or drop heap entries -/

theorem detachSelf_isSome (s : RendererState) (id j : Nat) :
    (hfind (detachSelf s id).nodes j).isSome = (hfind s.nodes j).isSome := by
  cases hfd : hfind s.nodes id with
  | none => rw [detachSelf_eq_of_noparent (by rw [hfd]; rfl)]
  | some n =>
    cases hpn : n.parentNode with
    | none => rw [detachSelf_eq_of_noparent (by rw [hfd, Option.some_bind, hpn])]
    | some p =>
      rw [detachSelf_nodes_of_parent hfd hpn, hfind_hmodify_isSome, hfind_hmodify_isSome]

theorem mapRemoveChildren_isSome (rm : RendererState → Nat → RendererState)
    (hrm : ∀ s c j, (hfind (rm s c).nodes j).isSome = (hfind s.nodes j).isSome) :
    ∀ r k s id j,
      (hfind (mapRemoveChildren rm id r k s).nodes j).isSome = (hfind s.nodes j).isSome := by
  intro r
  induction r with
  | zero => intro k s id j; rfl
  | succ r ih =>
    intro k s id j
    rw [mapRemoveChildren_succ]
    rcases hg : (((hfind s.nodes id).map (·.childNodes)).getD []).get? k with _ | c
    · rw [hg]
      exact ih (k + 1) s id j
    · rw [hg]
      rw [ih (k + 1) (rm s c) id j]
      exact hrm s c j

theorem removeNode_isSome :
    ∀ fuel s id j, (hfind (removeNode fuel s id).nodes j).isSome = (hfind s.nodes j).isSome := by
  intro fuel
  induction fuel with
  | zero => intro s id j; rfl
  | succ fuel ih =>
    intro s id j
    cases hfd : hfind s.nodes id with
    | none => rw [removeNode_of_missing hfd]
    | some n =>
      rw [removeNode_succ_of_found hfd]
      by_cases hname : n.nodeName = "#comment" ∨ n.nodeName = "#text"
      · rw [if_pos hname]
        exact detachSelf_isSome _ _ _
      · rw [if_neg hname]
        rw [detachSelf_isSome]
        exact mapRemoveChildren_isSome _ (fun s c j => ih s c j) _ _ _ _ _

theorem insertNode_nodes_of_noparent {s : RendererState} {node : Nat}
    (h : ((hfind s.nodes node).bind (·.parentNode)) = none) (parent : Nat)
    (anchor : Option Nat) :
    (insertNode s node parent anchor).nodes =
      hmodify (hmodify s.nodes parent (insChildF anchor node)) node (setParentF parent) := by
  simp only [insertNode, h]

theorem insertNode_nodes_of_parent {s : RendererState} {node q : Nat}
    (h : ((hfind s.nodes node).bind (·.parentNode)) = some q) (parent : Nat)
    (anchor : Option Nat) :
    (insertNode s node parent anchor).nodes =
      hmodify (hmodify (hmodify s.nodes q (eraseChildF node)) parent
        (insChildF anchor node)) node (setParentF parent) := by
  simp only [insertNode, h]

theorem insertNode_isSome (s : RendererState) (node parent : Nat) (anchor : Option Nat)
    (j : Nat) :
    (hfind (insertNode s node parent anchor).nodes j).isSome = (hfind s.nodes j).isSome := by
  cases hb : (hfind s.nodes node).bind (·.parentNode) with
  | none =>
    rw [insertNode_nodes_of_noparent hb, hfind_hmodify_isSome, hfind_hmodify_isSome]
  | some q =>
    rw [insertNode_nodes_of_parent hb, hfind_hmodify_isSome, hfind_hmodify_isSome,
      hfind_hmodify_isSome]

/-! ## Sequences of adapter calls (for the tree-consistency claim) -/

inductive AdapterOp where
  | insert (node parent : Nat) (anchor : Option Nat)
  | remove (node : Nat)
deriving DecidableEq

def applyOp (fuel : Nat) (s : RendererState) : AdapterOp → RendererState
  | .insert node parent anchor => insertNode s node parent anchor
  | .remove node => removeNode fuel s node

def runOps (fuel : Nat) (s : RendererState) (ops : List AdapterOp) : RendererState :=
  ops.foldl (applyOp fuel) s

/-- An operation only mentions nodes that exist in the heap (the reconciler
only ever passes node handles it obtained from the adapter). -/
def opNodesPresent (s : RendererState) : AdapterOp → Prop
  | .insert node parent _ =>
    (hfind s.nodes node).isSome = true ∧ (hfind s.nodes parent).isSome = true
  | .remove _ => True

instance (s : RendererState) : (op : AdapterOp) → Decidable (opNodesPresent s op)
  | .insert .. => inferInstanceAs (Decidable (_ ∧ _))
  | .remove _ => inferInstanceAs (Decidable True)

theorem applyOp_isSome (fuel : Nat) (s : RendererState) (op : AdapterOp) (j : Nat) :
    (hfind (applyOp fuel s op).nodes j).isSome = (hfind s.nodes j).isSome := by
  cases op with
  | insert node parent anchor => exact insertNode_isSome s node parent anchor j
  | remove node => exact removeNode_isSome fuel s node j

theorem applyOp_preserves (fuel : Nat) (s : RendererState) (op : AdapterOp)
    (hw : TreeWF s.nodes) (hop : opNodesPresent s op) :
    TreeWF (applyOp fuel s op).nodes := by
  cases op with
  | insert node parent anchor => exact TreeWF_insertNode s node parent anchor hw hop.1 hop.2
  | remove node => exact removeNode_preserves fuel s node hw

theorem opNodesPresent_transport (fuel : Nat) (s : RendererState) (op op' : AdapterOp)
    (hop : opNodesPresent s op') : opNodesPresent (applyOp fuel s op) op' := by
  cases op' with
  | insert node parent anchor =>
    exact ⟨(applyOp_isSome fuel s op node).trans hop.1,
      (applyOp_isSome fuel s op parent).trans hop.2⟩
  | remove node => trivial

theorem runOps_preserves (fuel : Nat) :
    ∀ ops s, TreeWF s.nodes → (∀ op ∈ ops, opNodesPresent s op) →
      TreeWF (runOps fuel s ops).nodes := by
  intro ops
  induction ops with
  | nil => intro s hw _; exact hw
  | cons op t ih =>
    intro s hw hval
    rw [runOps, List.foldl_cons]
    exact ih (applyOp fuel s op)
      (applyOp_preserves fuel s op hw (hval op (List.mem_cons_self _ _)))
      (fun op' hop' => opNodesPresent_transport fuel s op op'
        (hval op' (List.mem_cons_of_mem _ hop')))

/-- Claim C3: after every sequence of insert and remove adapter calls starting
from well-formed nodes (and mentioning only existing node handles), every
node's stored parent back-reference, when non-null, points to a node whose
child sequence contains that node at some index, and each node appears in its
parent's child sequence at most once. -/
theorem tree_consistency_invariant (fuel : Nat) (s : RendererState) (ops : List AdapterOp)
    (hwf : TreeWF s.nodes) (hval : ∀ op ∈ ops, opNodesPresent s op) :
    ClaimInvariant (runOps fuel s ops).nodes :=
  claimInvariant_of_treeWF (runOps_preserves fuel ops s hwf hval)

def exC3 : RendererState :=
  { nodes := [
      (0, { nodeName := "tui-root", childNodes := [1, 2] }),
      (1, { nodeName := "tui-box", parentNode := some 0 }),
      (2, { nodeName := "#text", nodeValue := "hi", parentNode := some 0 })],
    yoga := [] }

def exC3ops : List AdapterOp :=
  [.remove 1, .insert 1 0 (some 2), .insert 2 1 none, .remove 0]

theorem tree_consistency_invariant_witness :
    TreeWF exC3.nodes ∧ (∀ op ∈ exC3ops, opNodesPresent exC3 op) ∧
      ClaimInvariant (runOps 4 exC3 exC3ops).nodes :=
  ⟨treeWF_of_check (by decide), by decide,
    tree_consistency_invariant 4 exC3 exC3ops (treeWF_of_check (by decide)) (by decide)⟩

/-! ## The child-iteration slip in `removeNode` (claims C2 and C4)

`removeNode` iterates `node.childNodes.map(removeNode)` while each recursive
call splices the visited child out of that very array; with JavaScript map
semantics the children at the positions shifted over are never visited. -/

def exC2 : RendererState :=
  { nodes := [
      (0, { nodeName := "tui-root", childNodes := [1] }),
      (1, { nodeName := "tui-box", childNodes := [2, 3], parentNode := some 0 }),
      (2, { nodeName := "#text", nodeValue := "a", parentNode := some 1 }),
      (3, { nodeName := "#text", nodeValue := "b", parentNode := some 1 })],
    yoga := [] }

/-- Claim C2 (code bug): removing element 1, whose children are the text
nodes 2 and 3, removes child 2 but never visits child 3: after the call the
removed node still holds child 3 and child 3 still points at it, while the
node itself has been excised from its parent 0 and detached.  The claim
("recursively removes all of node's children first") describes the evident
intent of `node.childNodes.map(removeNode)`; the splice-during-map skips the
second child. -/
theorem removeNode_skips_second_child :
    ((hfind (removeNode 10 exC2 1).nodes 2).map (·.parentNode) = some none) ∧
    ((hfind (removeNode 10 exC2 1).nodes 3).map (·.parentNode) = some (some 1)) ∧
    ((hfind (removeNode 10 exC2 1).nodes 1).map (·.childNodes) = some [3]) ∧
    ((hfind (removeNode 10 exC2 1).nodes 1).map (·.parentNode) = some none) ∧
    ((hfind (removeNode 10 exC2 1).nodes 0).map (·.childNodes) = some []) := by
  decide

def exC4 : RendererState :=
  { nodes := [
      (0, { nodeName := "tui-box", childNodes := [1, 2] }),
      (1, { nodeName := "#text", nodeValue := "a", parentNode := some 0 }),
      (2, { nodeName := "#text", nodeValue := "b", parentNode := some 0 })],
    yoga := [] }

/-- Claim C4 (code bug): removing the already-detached element 0 (no parent)
does not touch the node itself or the layout heap — but the promised
"recursive cleanup of node's descendants" is incomplete: child 1 is cleaned
up while child 2 is skipped by the same splice-during-map slip and remains
attached to the detached node. -/
theorem removeNode_detached_incomplete_cleanup :
    ((hfind (removeNode 10 exC4 0).nodes 1).map (·.parentNode) = some none) ∧
    ((hfind (removeNode 10 exC4 0).nodes 2).map (·.parentNode) = some (some 0)) ∧
    ((hfind (removeNode 10 exC4 0).nodes 0).map (·.childNodes) = some [2]) ∧
    ((hfind (removeNode 10 exC4 0).nodes 0).map (·.parentNode) = some none) ∧
    (removeNode 10 exC4 0).yoga = exC4.yoga := by
  decide

/-! ## `nextSibling` (claim C9) -/

theorem hfind_cons_self {α : Type} (k : Nat) (v : α) (h : Heap α) :
    hfind ((k, v) :: h) k = some v := by
  simp [hfind]

theorem hfind_cons_ne {α : Type} (k : Nat) (v : α) (h : Heap α) (j : Nat) (hj : j ≠ k) :
    hfind ((k, v) :: h) j = hfind h j := by
  simp [hfind, Ne.symm hj]

theorem listIndexOf_append {l1 l2 : List Nat} {id : Nat} (h : id ∉ l1) :
    listIndexOf (l1 ++ id :: l2) id = some l1.length := by
  induction l1 with
  | nil => simp [listIndexOf]
  | cons x t ih =>
    simp only [List.mem_cons, not_or] at h
    obtain ⟨hne, hnm⟩ := h
    simp [listIndexOf, Ne.symm hne, ih hnm]

theorem get?_append_cons_succ {l2 : List Nat} {id : Nat} :
    ∀ l1 : List Nat, (l1 ++ id :: l2).get? (l1.length + 1) = l2.get? 0 := by
  intro l1
  induction l1 with
  | nil => rfl
  | cons x t ih => exact ih

theorem get?_zero_eq_head? (l : List Nat) : l.get? 0 = l.head? := by
  cases l <;> rfl

/-- Claim C9: `nextSibling(node)` returns the child immediately following the
node in its parent's child sequence, and null when the node has no parent or
is the last child; it is a pure read (a function of the state, which it
leaves untouched). -/
theorem nextSibling_spec (s : RendererState) (id : Nat) (n : NodeData)
    (hn : hfind s.nodes id = some n) :
    (n.parentNode = none → nextSibling s id = none) ∧
    (∀ p pd l1 l2, n.parentNode = some p → hfind s.nodes p = some pd →
      pd.childNodes = l1 ++ id :: l2 → id ∉ l1 →
      nextSibling s id = l2.head?) := by
  constructor
  · intro hpn
    simp only [nextSibling, hn, Option.some_bind, hpn]
  · intro p pd l1 l2 hpn hfp hsplit hnotin
    simp only [nextSibling, hn, Option.some_bind, hpn, hfp, Option.map_some',
      Option.getD_some, hsplit, listIndexOf_append hnotin]
    rw [get?_append_cons_succ, get?_zero_eq_head?]

def exC9 : RendererState :=
  { nodes := [
      (0, { nodeName := "tui-root", childNodes := [1, 2] }),
      (1, { nodeName := "#text", nodeValue := "a", parentNode := some 0 }),
      (2, { nodeName := "#text", nodeValue := "b", parentNode := some 0 })],
    yoga := [] }

theorem nextSibling_spec_witness :
    hfind exC9.nodes 1 = some { nodeName := "#text", nodeValue := "a", parentNode := some 0 } ∧
    nextSibling exC9 1 = some 2 :=
  ⟨by decide,
    ((nextSibling_spec exC9 1 { nodeName := "#text", nodeValue := "a", parentNode := some 0 }
      (by decide)).2 0
      { nodeName := "tui-root", childNodes := [1, 2] } [] [2] rfl (by decide) rfl
      (by decide))⟩

/-! ## `setText` / `setElementText` (claim C7) -/

/-- Claim C7: `setText(node, text)` on a text or comment node replaces that
node's stored value (and nothing else); on an element node it is redirected
to the element-text path, which replaces the value of the element's first
text child when one exists and otherwise inserts a fresh text child holding
the text, appended to the element's child sequence with its parent reference
set. -/
theorem setText_spec (s : RendererState) (id : Nat) (text : String) (fresh : Nat)
    (n : NodeData) (hn : hfind s.nodes id = some n)
    (hfresh : (hfind s.nodes fresh).isSome = false) :
    ((n.nodeName = "#text" ∨ n.nodeName = "#comment") →
      hfind (setText s id text fresh).nodes id = some { n with nodeValue := text } ∧
      (∀ j, j ≠ id → hfind (setText s id text fresh).nodes j = hfind s.nodes j) ∧
      (setText s id text fresh).yoga = s.yoga) ∧
    (¬(n.nodeName = "#text" ∨ n.nodeName = "#comment") →
      (∀ c, firstTextChild s id = some c →
        hfind (setText s id text fresh).nodes c =
          (hfind s.nodes c).map (fun cd => { cd with nodeValue := text }) ∧
        (∀ j, j ≠ c → hfind (setText s id text fresh).nodes j = hfind s.nodes j) ∧
        (setText s id text fresh).yoga = s.yoga) ∧
      (firstTextChild s id = none →
        hfind (setText s id text fresh).nodes fresh =
          some { createText text with parentNode := some id } ∧
        hfind (setText s id text fresh).nodes id =
          some { n with childNodes := n.childNodes ++ [fresh] } ∧
        (∀ j, j ≠ id → j ≠ fresh →
          hfind (setText s id text fresh).nodes j = hfind s.nodes j) ∧
        (setText s id text fresh).yoga = s.yoga)) := by
  have hidf : id ≠ fresh := by
    intro hidf
    rw [hidf] at hn
    rw [hn] at hfresh
    exact absurd hfresh (by simp)
  constructor
  · intro hname
    have hred : setText s id text fresh =
        { s with nodes := hmodify s.nodes id fun d => { d with nodeValue := text } } := by
      simp only [setText, hn, if_pos hname]
    rw [hred]
    exact ⟨by rw [hfind_hmodify_same, hn]; rfl, fun j hj => hfind_hmodify_ne _ _ _ _ hj, rfl⟩
  · intro hname
    have hred : setText s id text fresh = setElementText s id text fresh := by
      simp only [setText, hn, if_neg hname]
    constructor
    · intro c hc
      have hred2 : setText s id text fresh =
          { s with nodes := hmodify s.nodes c fun d => { d with nodeValue := text } } := by
        rw [hred]
        simp only [setElementText, hc]
      rw [hred2]
      exact ⟨hfind_hmodify_same _ _ _, fun j hj => hfind_hmodify_ne _ _ _ _ hj, rfl⟩
    · intro hc
      have hfresh1 : hfind ((fresh, createText text) :: s.nodes) fresh = some (createText text) :=
        hfind_cons_self _ _ _
      have hb : ((hfind ((fresh, createText text) :: s.nodes) fresh).bind (·.parentNode))
          = none := by
        rw [hfresh1]
        rfl
      have hred2 : (setText s id text fresh).nodes =
          hmodify (hmodify ((fresh, createText text) :: s.nodes) id (insChildF none fresh))
            fresh (setParentF id) := by
        rw [hred]
        simp only [setElementText, hc]
        exact insertNode_nodes_of_noparent hb id none
      have hyoga : (setText s id text fresh).yoga = s.yoga := by
        rw [hred]
        simp only [setElementText, hc]
        rfl
      refine ⟨?_, ?_, ?_, hyoga⟩
      · rw [hred2, hfind_hmodify_same, hfind_hmodify_ne _ _ _ _ (Ne.symm hidf), hfresh1]
        rfl
      · rw [hred2, hfind_hmodify_ne _ _ _ _ hidf, hfind_hmodify_same,
          hfind_cons_ne _ _ _ _ hidf, hn]
        rfl
      · intro j hjid hjfresh
        rw [hred2, hfind_hmodify_ne _ _ _ _ hjfresh, hfind_hmodify_ne _ _ _ _ hjid,
          hfind_cons_ne _ _ _ _ hjfresh]

def exC7 : RendererState :=
  { nodes := [
      (0, { nodeName := "tui-box", childNodes := [1] }),
      (1, { nodeName := "#text", nodeValue := "old", parentNode := some 0 })],
    yoga := [] }

theorem setText_spec_witness :
    hfind exC7.nodes 1 = some { nodeName := "#text", nodeValue := "old", parentNode := some 0 } ∧
    (hfind exC7.nodes 9).isSome = false ∧
    hfind (setText exC7 1 "new" 9).nodes 1 =
      some { nodeName := "#text", nodeValue := "new", parentNode := some 0 } :=
  ⟨by decide, by decide,
    ((setText_spec exC7 1 "new" 9
      { nodeName := "#text", nodeValue := "old", parentNode := some 0 }
      (by decide) (by decide)).1 (Or.inl rfl)).1⟩

/-! ## `patchProp` (claim C8) -/

/-- Claim C8: `patchProp` updates exactly one named property: a `style` key
records the style on the element and applies it to the element's layout-node
handle when it owns one; the `internal_transform` key stores the transform
handle; every other key changes nothing and raises no error.  `prevValue` is
ignored throughout, as in the source. -/
theorem patchProp_spec (s : RendererState) (id : Nat) (key : String) (prev next : Nat)
    (n : NodeData) (hn : hfind s.nodes id = some n) :
    (key = "style" →
      hfind (patchProp s id key prev next).nodes id = some { n with style := some next } ∧
      (∀ j, j ≠ id → hfind (patchProp s id key prev next).nodes j = hfind s.nodes j) ∧
      (patchProp s id key prev next).yoga =
        (match n.yogaNode with
         | some y => applyStyles s.yoga y next
         | none => s.yoga)) ∧
    (key = "internal_transform" →
      hfind (patchProp s id key prev next).nodes id =
        some { n with internal_transform := some next } ∧
      (∀ j, j ≠ id → hfind (patchProp s id key prev next).nodes j = hfind s.nodes j) ∧
      (patchProp s id key prev next).yoga = s.yoga) ∧
    (key ≠ "style" → key ≠ "internal_transform" → patchProp s id key prev next = s) := by
  refine ⟨?_, ?_, ?_⟩
  · intro hk
    subst hk
    have hnodes1 : hfind (hmodify s.nodes id fun d => { d with style := some next }) id
        = some { n with style := some next } := by
      rw [hfind_hmodify_same, hn]
      rfl
    have hred : patchProp s id "style" prev next =
        { nodes := hmodify s.nodes id fun d => { d with style := some next },
          yoga := (match n.yogaNode with
                   | some y => applyStyles s.yoga y next
                   | none => s.yoga) } := by
      simp only [patchProp]
      rw [if_true, hnodes1]
      cases hyoga : n.yogaNode with
      | none => simp only [Option.some_bind, hyoga]
      | some y => simp only [Option.some_bind, hyoga]
    rw [hred]
    exact ⟨hnodes1, fun j hj => hfind_hmodify_ne _ _ _ _ hj, rfl⟩
  · intro hk
    subst hk
    have hred : patchProp s id "internal_transform" prev next =
        { s with nodes :=
            hmodify s.nodes id (fun d => { d with internal_transform := some next }) } := by
      simp only [patchProp]
      rw [if_neg (by decide), if_true]
    rw [hred]
    exact ⟨by rw [hfind_hmodify_same, hn]; rfl, fun j hj => hfind_hmodify_ne _ _ _ _ hj, rfl⟩
  · intro hk1 hk2
    simp only [patchProp]
    rw [if_neg hk1, if_neg hk2]

def exC8 : RendererState :=
  { nodes := [(0, { nodeName := "tui-box", yogaNode := some 5 })],
    yoga := [(5, { children := [] })] }

theorem patchProp_spec_witness :
    hfind exC8.nodes 0 = some { nodeName := "tui-box", yogaNode := some 5 } ∧
    hfind (patchProp exC8 0 "style" 7 8).nodes 0 =
      some { nodeName := "tui-box", yogaNode := some 5, style := some 8 } ∧
    (patchProp exC8 0 "other" 7 8) = exC8 :=
  ⟨by decide,
    (((patchProp_spec exC8 0 "style" 7 8 { nodeName := "tui-box", yogaNode := some 5 }
      (by decide)).1 rfl).1),
    ((patchProp_spec exC8 0 "other" 7 8 { nodeName := "tui-box", yogaNode := some 5 }
      (by decide)).2.2 (by decide) (by decide))⟩

/-! ## Lifecycle controller (source lines 204-238 and 257-266)

The `onExit` callback runs synchronously; it is embedded as the ordered list
of calls it makes.  The vendored signal-exit dependency (not under `src/`)
invokes it with `(code, signal)`; per the spec's process-termination
interface a notification carries an exit code (signal null) or a
termination signal (code null). -/

structure TuiError where
  code : Option Int
  signal : Option String
  message : String
deriving DecidableEq

/-- `new TuiError(code, signal)` (source lines 261-265): the message is
`Program Interrupted with "<signal>" (<code>)`, where a null signal prints
as `null` and a zero or null code contributes nothing. -/
def TuiError.make (code : Option Int) (signal : Option String) : TuiError :=
  { code := code, signal := signal,
    message := "Program Interrupted with \"" ++
      (match signal with
       | some sg => sg
       | none => "null") ++ "\" " ++
      (match code with
       | some c => if c = 0 then "" else "(" ++ toString c ++ ")"
       | none => "") }

inductive ExitAction where
  | logNotification (code : Option Int) (signal : Option String)
  | clearKeepAlive
  | settleResolve
  | settleReject (e : TuiError)
  | showCursor
  | unmountApp
deriving DecidableEq

/-- The `onExit` callback (source lines 222-235) as its ordered synchronous
call trace: log the notification; then, only when the code is not 0 and the
keep-alive interval exists: clear the interval, call the resolve function
(SIGINT) or the reject function with a fresh `TuiError` (any other
nonzero/signal termination), restore the cursor, and call `unmount()`. -/
def onExitTrace (intervalPresent : Bool) (code : Option Int) (signal : Option String) :
    List ExitAction :=
  ExitAction.logNotification code signal ::
    (if code ≠ some 0 ∧ intervalPresent = true then
      ExitAction.clearKeepAlive ::
        ((if signal = some "SIGINT" then [ExitAction.settleResolve]
          else [ExitAction.settleReject (TuiError.make code signal)]) ++
         [ExitAction.showCursor, ExitAction.unmountApp])
    else [])

def ExitAction.isSettle : ExitAction → Bool
  | .settleResolve => true
  | .settleReject _ => true
  | _ => false

def ExitAction.isShowCursor : ExitAction → Bool
  | .showCursor => true
  | _ => false

def ExitAction.isUnmount : ExitAction → Bool
  | .unmountApp => true
  | _ => false

/-- The promise-settling calls the handler makes, in order. -/
def settleActions (t : List ExitAction) : List ExitAction := t.filter ExitAction.isSettle

/-- Index of the first action satisfying `p` (the trace length when none
does). -/
def firstIdx : List ExitAction → (ExitAction → Bool) → Nat
  | [], _ => 0
  | a :: t, p => if p a then 0 else firstIdx t p + 1

/-- Claim C1: with the keep-alive interval present (the default
`waitUntilExit: true` construction), for every delivered termination
notification (the signal-exit interface delivers an exit code with no
signal, or a signal with a null code): a SIGINT notification resolves the
exit-wait promise; a nonzero exit code or a non-interrupt signal rejects it
with a `TuiError` whose `code` field is exactly the nullable exit code and
whose `signal` field is exactly the signal; a zero code with no signal
settles the promise neither way. -/
theorem exit_handler_settlement (code : Option Int) (signal : Option String)
    (hshape : code = none ∨ signal = none) :
    (signal = some "SIGINT" →
      settleActions (onExitTrace true code signal) = [ExitAction.settleResolve]) ∧
    ((∃ c, code = some c ∧ c ≠ 0) ∨ (∃ sg, signal = some sg ∧ sg ≠ "SIGINT") →
      settleActions (onExitTrace true code signal) =
        [ExitAction.settleReject (TuiError.make code signal)] ∧
      (TuiError.make code signal).code = code ∧
      (TuiError.make code signal).signal = signal) ∧
    (code = some 0 → signal = none →
      settleActions (onExitTrace true code signal) = []) := by
  refine ⟨?_, ?_, ?_⟩
  · intro hs
    rcases hshape with hc | hc
    · subst hc
      subst hs
      decide
    · rw [hc] at hs
      exact Option.noConfusion hs
  · intro hrej
    rcases hrej with ⟨c, hc, hcne⟩ | ⟨sg, hsg, hsgne⟩
    · subst hc
      rcases hshape with hc | hc
      · exact Option.noConfusion hc
      · subst hc
        have hcond : ((some c : Option Int) ≠ some 0 ∧ (true : Bool) = true) :=
          ⟨fun h => hcne (Option.some.inj h), rfl⟩
        refine ⟨?_, rfl, rfl⟩
        rw [onExitTrace, if_pos hcond, if_neg (by decide)]
        simp [settleActions, List.filter, ExitAction.isSettle]
    · subst hsg
      rcases hshape with hc | hc
      · subst hc
        have hcond : ((none : Option Int) ≠ some 0 ∧ (true : Bool) = true) :=
          ⟨by decide, rfl⟩
        have hsig : ¬((some sg : Option String) = some "SIGINT") :=
          fun h => hsgne (Option.some.inj h)
        refine ⟨?_, rfl, rfl⟩
        rw [onExitTrace, if_pos hcond, if_neg hsig]
        simp [settleActions, List.filter, ExitAction.isSettle]
      · exact Option.noConfusion hc
  · intro hc hs
    subst hc
    subst hs
    decide

theorem exit_handler_settlement_witness :
    ((none : Option Int) = none ∨ (some "SIGINT" : Option String) = none) ∧
    settleActions (onExitTrace true none (some "SIGINT")) = [ExitAction.settleResolve] :=
  ⟨Or.inl rfl, (exit_handler_settlement none (some "SIGINT") (Or.inl rfl)).1 rfl⟩

/-- Claim C6 as stated is false at the concrete SIGINT notification (with the
keep-alive interval present): in the handler's synchronous trace the settle
call precedes both the cursor restore and the unmount, so the cursor is not
restored (nor is unmount invoked) before the exit-wait promise settles. -/
theorem exit_cursor_before_settle_counterexample :
    ¬ (firstIdx (onExitTrace true none (some "SIGINT")) ExitAction.isShowCursor <
        firstIdx (onExitTrace true none (some "SIGINT")) ExitAction.isSettle) ∧
    ¬ (firstIdx (onExitTrace true none (some "SIGINT")) ExitAction.isUnmount <
        firstIdx (onExitTrace true none (some "SIGINT")) ExitAction.isSettle) := by
  decide

/-- Claim C6 amended: on every abnormal termination notification that settles
the exit-wait promise, the handler makes exactly one settle call, and the
cursor restore and the `unmount()` call follow it inside the same synchronous
handler invocation (so both happen before the handler returns, and hence
before any continuation of the promise can observe the settlement). -/
theorem exit_cleanup_follows_settle (code : Option Int) (signal : Option String)
    (hcode : code ≠ some 0) :
    (settleActions (onExitTrace true code signal)).length = 1 ∧
    firstIdx (onExitTrace true code signal) ExitAction.isSettle <
      firstIdx (onExitTrace true code signal) ExitAction.isShowCursor ∧
    firstIdx (onExitTrace true code signal) ExitAction.isShowCursor <
      firstIdx (onExitTrace true code signal) ExitAction.isUnmount ∧
    firstIdx (onExitTrace true code signal) ExitAction.isUnmount <
      (onExitTrace true code signal).length := by
  have hcond : (code ≠ some 0 ∧ (true : Bool) = true) := ⟨hcode, rfl⟩
  by_cases hs : signal = some "SIGINT"
  · rw [onExitTrace, if_pos hcond, if_pos hs]
    simp [settleActions, List.filter, firstIdx, ExitAction.isSettle,
      ExitAction.isShowCursor, ExitAction.isUnmount]
  · rw [onExitTrace, if_pos hcond, if_neg hs]
    simp [settleActions, List.filter, firstIdx, ExitAction.isSettle,
      ExitAction.isShowCursor, ExitAction.isUnmount]

theorem exit_cleanup_follows_settle_witness :
    ((some 1 : Option Int) ≠ some 0) ∧
    (settleActions (onExitTrace true (some 1) none)).length = 1 :=
  ⟨by decide, (exit_cleanup_follows_settle (some 1) none (by decide)).1⟩

/-- Claim C10: when the app is constructed with `waitUntilExit: false` no
keep-alive interval exists, so every termination notification — any code,
any signal, SIGINT included — only gets logged: the handler settles the
exit-wait promise neither way, does not restore the cursor and does not
invoke `unmount()`, because its guard requires a nonzero code and the
interval. -/
theorem exit_handler_inert_without_interval (code : Option Int) (signal : Option String) :
    onExitTrace false code signal = [ExitAction.logNotification code signal] ∧
    settleActions (onExitTrace false code signal) = [] ∧
    ExitAction.showCursor ∉ onExitTrace false code signal ∧
    ExitAction.unmountApp ∉ onExitTrace false code signal := by
  have hred : onExitTrace false code signal = [ExitAction.logNotification code signal] := by
    rw [onExitTrace, if_neg]
    intro hcond
    exact Bool.false_ne_true hcond.2
  refine ⟨hred, ?_, ?_, ?_⟩ <;> rw [hred] <;>
    simp [settleActions, List.filter, ExitAction.isSettle]

/-! ## `waitUntilExit` memoization (source lines 204-215, claim C5) -/

inductive PromiseStatus where
  | pending
  | resolved
  | rejected (e : TuiError)
deriving DecidableEq

/-- The closure state of `createApp` that `waitUntilExit` touches: the
memoized `exitPromise` handle, the status of every allocated promise, and a
fresh-handle counter standing for allocation of a new `Promise` object. -/
structure LifecycleState where
  exitPromise : Option Nat
  promises : Heap PromiseStatus
  nextPromiseId : Nat
deriving DecidableEq

/-- `newApp.waitUntilExit` (source lines 207-215): create the promise only
when none exists yet, then return the memoized handle. -/
def waitUntilExit (s : LifecycleState) : Nat × LifecycleState :=
  match s.exitPromise with
  | some p => (p, s)
  | none =>
    (s.nextPromiseId,
      { exitPromise := some s.nextPromiseId,
        promises := (s.nextPromiseId, PromiseStatus.pending) :: s.promises,
        nextPromiseId := s.nextPromiseId + 1 })

/-- Claim C5: `waitUntilExit()` is memoized — the first call creates a single
pending promise handle and stores it, every subsequent call returns exactly
the same handle without changing the state, and the method never settles any
promise on its own: every previously recorded promise status is preserved
verbatim. -/
theorem waitUntilExit_memoized (s : LifecycleState)
    (hkeys : ∀ e ∈ s.promises, e.1 < s.nextPromiseId) :
    ((waitUntilExit (waitUntilExit s).2).1 = (waitUntilExit s).1 ∧
      (waitUntilExit (waitUntilExit s).2).2 = (waitUntilExit s).2) ∧
    (∀ q st, hfind s.promises q = some st →
      hfind (waitUntilExit s).2.promises q = some st) ∧
    (s.exitPromise = none →
      hfind (waitUntilExit s).2.promises (waitUntilExit s).1 =
        some PromiseStatus.pending) := by
  cases hep : s.exitPromise with
  | some p =>
    refine ⟨?_, ?_, ?_⟩
    · simp [waitUntilExit, hep]
    · intro q st h
      simpa [waitUntilExit, hep] using h
    · intro h
      exact Option.noConfusion h
  | none =>
    refine ⟨?_, ?_, ?_⟩
    · simp [waitUntilExit, hep]
    · intro q st h
      have hq : q < s.nextPromiseId := hkeys (q, st) (hfind_mem h)
      simp only [waitUntilExit, hep]
      rw [hfind_cons_ne _ _ _ _ (Nat.ne_of_lt hq)]
      exact h
    · intro _
      simp only [waitUntilExit, hep]
      exact hfind_cons_self _ _ _

theorem waitUntilExit_memoized_witness :
    (∀ e ∈ (LifecycleState.mk none [] 0).promises, e.1 < (LifecycleState.mk none [] 0).nextPromiseId) ∧
    hfind (waitUntilExit (LifecycleState.mk none [] 0)).2.promises
      (waitUntilExit (LifecycleState.mk none [] 0)).1 = some PromiseStatus.pending :=
  ⟨by simp, (waitUntilExit_memoized (LifecycleState.mk none [] 0) (by simp)).2.2 rfl⟩

end VueTermui
